import Mathlib

set_option maxHeartbeats 1000000
set_option maxRecDepth 10000

/-!
Shallow embedding of the BIP39 mnemonic encoder/decoder implemented in
src/bip39.cpp of krogla/bip39-cxx.  Hexadecimal strings and binary digit
strings are represented as lists of characters, std::bitset values as
natural numbers, and thrown MnemonicException values as the error side
of Except.  The SHA-256 primitive, the wordlist table and the small
utilities of utils.h are external to the source file; they are passed as
parameters or modelled from the specification, as marked below.
-/

/-- Value of one binary digit character, as computed by the source
expression (final[i] - 48) inside BIP39::bits2hex. -/
def bitVal (c : Char) : Nat := c.toNat - 48

/-- Rendering of a natural number as a zero-padded binary string of w
characters, most significant bit first: the behaviour of
std::bitset<w>::to_string on the value n (for n below 2 ^ w the extra
bits are zero and do not appear). -/
def natToBits : Nat → Nat → List Char
  | 0, _ => []
  | w + 1, n => natToBits w (n / 2) ++ [if n % 2 = 1 then '1' else '0']

/-- Value of a binary digit string read most significant bit first: the
behaviour of the std::bitset string constructor followed by to_ulong,
for strings of binary digit characters no longer than the bitset width. -/
def bitsVal (s : List Char) : Nat :=
  s.foldl (fun a c => 2 * a + (if c = '1' then 1 else 0)) 0

/-- Modelled from the spec: BIP39_Utils::isHex lives in utils.h, which
is not part of the source file; a string is hexadecimal when every
character is a decimal digit or a letter a-f in either case
(spec section 4.1: case-insensitive on input). -/
def isHexChar (c : Char) : Bool :=
  (decide (48 ≤ c.toNat) && decide (c.toNat ≤ 57)) ||
  (decide (97 ≤ c.toNat) && decide (c.toNat ≤ 102)) ||
  (decide (65 ≤ c.toNat) && decide (c.toNat ≤ 70))

/-- Modelled from the spec: BIP39_Utils::isHex of utils.h, a pure
character-wise scan. -/
def isHex (s : List Char) : Bool := s.all isHexChar

/-- Modelled from the spec: numeric value of a hexadecimal character,
case-insensitive, as used by BIP39_Utils::hex_char_to_bin of utils.h. -/
def hexCharVal (c : Char) : Nat :=
  if 48 ≤ c.toNat ∧ c.toNat ≤ 57 then c.toNat - 48
  else if 97 ≤ c.toNat ∧ c.toNat ≤ 102 then c.toNat - 87
  else if 65 ≤ c.toNat ∧ c.toNat ≤ 70 then c.toNat - 55
  else 0

/-- Modelled from the spec: BIP39_Utils::hex_char_to_bin of utils.h maps
each hex character to its 4-bit binary representation
(spec section 4.1). -/
def hex_char_to_bin (c : Char) : List Char := natToBits 4 (hexCharVal c)

/-- Translation of BIP39::hex2bits (bip39.cpp lines 246-255): the 4-bit
groups of all characters concatenated in input order. -/
def hex2bits (hex : List Char) : List Char := (hex.map hex_char_to_bin).flatten

/-- Modelled from the spec: the sixteen hexadecimal digit characters in
value order, as produced by BIP39_Utils::bin_str_to_hex of utils.h
(output case chosen as lowercase, the conventional rendering; the spec
fixes only that each 4-bit group maps to one hex nibble). -/
def hexDigits : List Char :=
  ['0', '1', '2', '3', '4'] ++ ['5', '6', '7', '8', '9'] ++ ['a', 'b', 'c'] ++ ['d', 'e', 'f']

/-- Modelled from the spec: BIP39_Utils::bin_str_to_hex of utils.h,
rendering of one nibble value as a hexadecimal character. -/
def bin_str_to_hex (j : Nat) : Char := hexDigits.getD j '0'

/-- Translation of BIP39::bits2hex (bip39.cpp lines 257-270): each group
of four binary digit characters becomes one hex character via the shifts
(c0 - 48) <<< 3 OR (c1 - 48) <<< 2 OR (c2 - 48) <<< 1 OR (c3 - 48); a
trailing group shorter than four characters is dropped (spec section
4.1: the source truncates silently on non-multiple-of-4 input). -/
def bits2hex : List Char → List Char
  | b0 :: b1 :: b2 :: b3 :: rest =>
      bin_str_to_hex ((bitVal b0 <<< 3) ||| (bitVal b1 <<< 2) ||| (bitVal b2 <<< 1) ||| bitVal b3)
        :: bits2hex rest
  | _ => []

/-- Fuel-indexed splitting of a string into consecutive 11-character
substrings; the fuel only bounds the number of loop iterations and is
instantiated with the string length in chunk11. -/
def chunk11Go : Nat → List Char → List (List Char)
  | 0, _ => []
  | _ + 1, [] => []
  | fuel + 1, c :: rest => (c :: rest).take 11 :: chunk11Go fuel ((c :: rest).drop 11)

/-- Translation of the loop of BIP39::useEntropy (bip39.cpp lines
106-109): substr(i, 11) for i = 0, 11, 22, ... below the length, so the
last chunk may be shorter than 11 characters. -/
def chunk11 (s : List Char) : List (List Char) := chunk11Go s.length s

/-- Translation of BIP39::validateEntropy (bip39.cpp lines 61-77): the
string is hexadecimal and 4 times its length is one of the five valid
entropy bit lengths.  The source function is noexcept and total. -/
def validateEntropy (entropy : List Char) : Bool :=
  if !isHex entropy then false
  else
    let entropyBits := entropy.length * 4
    decide (entropyBits = 128) || decide (entropyBits = 160) || decide (entropyBits = 192) ||
      decide (entropyBits = 224) || decide (entropyBits = 256)

/-- Modelled from the spec: BIP39_Utils::hashEquals of utils.h compares
the two strings without early exit (spec section 4.5 step 6); timing is
not representable here, so it is string equality. -/
def hashEquals (a b : List Char) : Bool := a == b

/-- Translation of BIP39::len_to_mask (bip39.cpp lines 272-288). -/
def len_to_mask : Nat → Nat
  | 128 => 0xf0
  | 160 => 0xf8
  | 192 => 0xfc
  | 224 => 0xfe
  | 256 => 0xff
  | _ => 0

/-- Wordlist collaborator as used by bip39.cpp: getWord, findIndex (a
negative result means the word is absent) and empty().  The table
itself is external to the source file. -/
structure Wordlist where
  getWord : Nat → List Char
  findIndex : List Char → Int
  isEmpty : Bool

/-- Thrown MnemonicException, carrying the message of the throw site. -/
structure MnemonicException where
  msg : String
deriving Repr, DecidableEq

/-- Mnemonic value as filled in by bip39.cpp: entropy hex, words, word
indices, raw 11-bit chunks (bitset values) and the word count. -/
structure Mnemonic where
  entropy : List Char := []
  words : List (List Char) := []
  wordsIndex : List Nat := []
  rawBinaryChunks : List Nat := []
  m_wordsCount : Nat := 0
deriving Repr, DecidableEq

/-- Conversion session state: the four derived widths set by the
constructor and the builder fields filled in later.  m_rawBinaryChunks
holds std::bitset<11> values, represented as natural numbers. -/
structure BIP39 where
  m_wordsCount : Nat
  m_overallBits : Nat
  m_checksumBits : Nat
  m_entropyBits : Nat
  m_entropy : List Char := []
  m_checksum : List Char := []
  m_rawBinaryChunks : List Nat := []
  m_wordList : Option Wordlist := none

/-- Translation of the constructor BIP39::BIP39(int) (bip39.cpp lines
23-38), with the two range checks and the four derived widths. -/
def BIP39.construct (wordCount : Int) : Except MnemonicException BIP39 :=
  if wordCount < 12 || wordCount > 24 then
    .error ⟨"Mnemonic words count must be between 12-24"⟩
  else if wordCount % 3 != 0 then
    .error ⟨"Words count must be generated in multiples of 3"⟩
  else
    let wc := wordCount.toNat
    .ok { m_wordsCount := wc
          m_overallBits := wc * 11
          m_checksumBits := (wc - 12) / 3 + 4
          m_entropyBits := wc * 11 - ((wc - 12) / 3 + 4) }

/-- Translation of BIP39::checksum (bip39.cpp lines 290-309).  The
SHA-256 digest of the decoded entropy bytes is external to the source
file; sha0 stands for the composition of BIP39_Utils::base16Decode with
sha256_Raw restricted to the first digest byte (out.at(0), a uint8_t,
hence below 256). -/
def BIP39.checksum (sha0 : List Char → Nat) (entropyBits : Nat) (entropy : List Char) : List Char :=
  let checksumChar := sha0 entropy
  let mask := len_to_mask entropyBits
  if mask = 0xf0 then natToBits 4 ((checksumChar &&& mask) >>> 4)
  else if mask = 0xf8 then natToBits 5 ((checksumChar &&& mask) >>> 3)
  else if mask = 0xfc then natToBits 6 ((checksumChar &&& mask) >>> 2)
  else if mask = 0xfe then natToBits 7 ((checksumChar &&& mask) >>> 1)
  else if mask = 0xff then natToBits 8 (checksumChar &&& mask)
  else []

/-- Translation of BIP39::useEntropy (bip39.cpp lines 98-111): validate,
store entropy and checksum, append the 11-character chunks of
hex2bits(entropy) concatenated with the checksum string. -/
def BIP39.useEntropy (sha0 : List Char → Nat) (st : BIP39) (entropy : List Char) :
    Except MnemonicException BIP39 :=
  if !validateEntropy entropy then .error ⟨"Invalid Entropy"⟩
  else
    let cs := BIP39.checksum sha0 st.m_entropyBits entropy
    let str := hex2bits entropy ++ cs
    .ok { st with
          m_entropy := entropy
          m_checksum := cs
          m_rawBinaryChunks := st.m_rawBinaryChunks ++ (chunk11 str).map bitsVal }

/-- Translation of BIP39::wordList (bip39.cpp lines 190-196): reject a
null pointer, otherwise bind the wordlist. -/
def BIP39.wordList (st : BIP39) (wordlist : Option Wordlist) : Except MnemonicException BIP39 :=
  match wordlist with
  | none => .error ⟨"Invalid wordlist - wordList()"⟩
  | some w => .ok { st with m_wordList := some w }

/-- Translation of BIP39::mnemonic (bip39.cpp lines 169-188): reject an
empty entropy, reject an empty wordlist, then assemble the Mnemonic from
the stored chunks.  The none branch is modelled from the spec: the
member declaration of m_wordList lives in the header, which is not part
of the source file, and spec section 4.6 states that finalizing before
a wordlist is bound fails with an explicit ordering error. -/
def BIP39.mnemonic (st : BIP39) : Except MnemonicException Mnemonic :=
  if st.m_entropy = [] then .error ⟨"Entropy is empty"⟩
  else
    match st.m_wordList with
    | none => .error ⟨"Wordlist is not set"⟩
    | some wl =>
      if wl.isEmpty then .error ⟨"Wordlist is empty"⟩
      else
        .ok { entropy := st.m_entropy
              words := st.m_rawBinaryChunks.map (fun b => wl.getWord b)
              wordsIndex := st.m_rawBinaryChunks
              rawBinaryChunks := st.m_rawBinaryChunks
              m_wordsCount := st.m_rawBinaryChunks.length }

/-- Translation of the lookup loop of BIP39::reverse (bip39.cpp lines
211-222): indices of the words found before the first unknown word,
paired with whether the whole list was resolved. -/
def lookupWords (wl : Wordlist) : List (List Char) → List Nat × Bool
  | [] => ([], true)
  | w :: ws =>
    let idx := wl.findIndex w
    if idx < 0 then ([], false)
    else
      let r := lookupWords wl ws
      (idx.toNat :: r.1, r.2)

/-- Translation of BIP39::reverse (bip39.cpp lines 198-244).  On an
unknown word the source returns the partially filled Mnemonic as a
normal result (line 214).  The chunk stored for index i is
std::bitset<11>(i), that is i mod 2048. -/
def BIP39.reverse (sha0 : List Char → Nat) (st : BIP39) (words : List (List Char))
    (verifyChecksum : Bool) : Except MnemonicException Mnemonic :=
  match st.m_wordList with
  | none => .error ⟨"Wordlist is not set"⟩
  | some wl =>
    if wl.isEmpty then .error ⟨"Wordlist is empty"⟩
    else
      match lookupWords wl words with
      | (idxs, false) =>
        .ok { entropy := []
              words := words.take idxs.length
              wordsIndex := idxs
              rawBinaryChunks := idxs.map (fun i => i % 2048)
              m_wordsCount := idxs.length }
      | (idxs, true) =>
        let rawBinary := ((idxs.map (fun i => i % 2048)).map (natToBits 11)).flatten
        let entropyBitsStr := rawBinary.take st.m_entropyBits
        let checksumBitsStr := (rawBinary.drop st.m_entropyBits).take st.m_checksumBits
        let entropyHex := bits2hex entropyBitsStr
        if verifyChecksum &&
            !(hashEquals checksumBitsStr (BIP39.checksum sha0 st.m_entropyBits entropyHex)) then
          .error ⟨"Entropy checksum match failed!"⟩
        else
          .ok { entropy := entropyHex
                words := words
                wordsIndex := idxs
                rawBinaryChunks := idxs.map (fun i => i % 2048)
                m_wordsCount := idxs.length }

/-- Translation of line 46 of bip39.cpp: bit length of a hex string. -/
def entropyBitsOfHex (entropy : List Char) : Nat := entropy.length * 4

/-- Translation of line 47 of bip39.cpp: checksum width derived from the
entropy bit length inside BIP39::Entropy. -/
def checksumBitsOfEntropyBits (entropyBits : Nat) : Nat := (entropyBits - 128) / 32 + 4

/-- Translation of line 48 of bip39.cpp: word count derived from the
entropy bit length inside BIP39::Entropy. -/
def wordsCountOfEntropyBits (entropyBits : Nat) : Nat :=
  (entropyBits + checksumBitsOfEntropyBits entropyBits) / 11

/-- Propagation of a thrown MnemonicException through a chained builder
call, as the C++ exception does through the expression
BIP39(n).useEntropy(e).wordList(w).mnemonic(). -/
def chain {α β : Type} (x : Except MnemonicException α) (f : α → Except MnemonicException β) :
    Except MnemonicException β :=
  match x with
  | .error e => .error e
  | .ok st => f st

/-- Translation of BIP39::Entropy (bip39.cpp lines 40-54).  The english
wordlist of Wordlist::english() is external data and is passed as a
parameter. -/
def BIP39.Entropy (sha0 : List Char → Nat) (english : Wordlist) (entropy : List Char) :
    Except MnemonicException Mnemonic :=
  if !validateEntropy entropy then .error ⟨"Invalid Entropy"⟩
  else
    chain (BIP39.construct (wordsCountOfEntropyBits (entropyBitsOfHex entropy) : Nat)) fun st =>
    chain (BIP39.useEntropy sha0 st entropy) fun st2 =>
    chain (BIP39.wordList st2 (some english)) fun st3 =>
    BIP39.mnemonic st3

/-- Splitting on the space character, keeping empty components. -/
def splitGo (cur : List Char) : List Char → List (List Char)
  | [] => [cur.reverse]
  | c :: rest => if c = ' ' then cur.reverse :: splitGo [] rest else splitGo (c :: cur) rest

/-- Translation of the std::getline loop of BIP39::Words (bip39.cpp
lines 83-89): split on spaces; the component after a trailing delimiter
is never produced, because getline fails when it extracts nothing. -/
def splitWords (s : List Char) : List (List Char) :=
  let t := splitGo [] s
  if t.getLast? = some [] then t.dropLast else t

/-- Composition of the three calls of line 92 of bip39.cpp:
BIP39(wordCount).wordList(wordlist).reverse(spWords, verifyChecksum). -/
def BIP39.decode (sha0 : List Char → Nat) (wl : Wordlist) (spWords : List (List Char))
    (verifyChecksum : Bool) : Except MnemonicException Mnemonic :=
  chain (BIP39.construct (spWords.length : Nat)) fun st =>
  chain (BIP39.wordList st (some wl)) fun st2 =>
  BIP39.reverse sha0 st2 spWords verifyChecksum

/-- Translation of BIP39::Words (bip39.cpp lines 79-96): the null
wordlist check comes first, before the phrase is split or any word is
looked up. -/
def BIP39.Words (sha0 : List Char → Nat) (wordlist : Option Wordlist) (words : List Char)
    (verifyChecksum : Bool) : Except MnemonicException Mnemonic :=
  match wordlist with
  | none => .error ⟨"Invalid wordlist"⟩
  | some wl => BIP39.decode sha0 wl (splitWords words) verifyChecksum

/-- Bitset values stored by BIP39::useEntropy for a given entropy, when
the session widths match the entropy length: the 11-bit chunks of the
entropy bits concatenated with the checksum bits. -/
def encodeChunks (sha0 : List Char → Nat) (e : List Char) : List Nat :=
  (chunk11 (hex2bits e ++ BIP39.checksum sha0 (e.length * 4) e)).map bitsVal

/-- Concrete wordlist standing in for an external 2048-entry table: the
word of index i is the 11-bit binary rendering of i, so lookup in both
directions is exact on indices below 2048. -/
def testWordlist : Wordlist :=
  { getWord := fun i => natToBits 11 i
    findIndex := fun w => Int.ofNat (bitsVal w)
    isEmpty := false }

/-- Concrete wordlist that knows every word except the single-character
word z, used to exercise the unknown-word path of BIP39::reverse. -/
def unknownWordlist : Wordlist :=
  { getWord := fun _ => ['a']
    findIndex := fun w => if w = ['z'] then (-1 : Int) else 0
    isEmpty := false }

/-- Concrete stand-in for the first SHA-256 digest byte. -/
def shaZero : List Char → Nat := fun _ => 0

/-- All-zero 128-bit entropy, 32 hex characters. -/
def zeroEntropy32 : List Char := List.replicate 32 '0'

/-- 128-bit entropy written with uppercase hex letters. -/
def upperEntropy32 : List Char := List.replicate 32 'A'

/-- 128-bit entropy written with lowercase hex letters. -/
def lowerEntropy32 : List Char := List.replicate 32 'a'

/-- Twelve-word phrase whose last word is unknown to unknownWordlist. -/
def phraseWithUnknown : List Char := (List.replicate 11 ['a', ' ']).flatten ++ ['z']

/-! Helper lemmas about the bit-string primitives. -/

theorem natToBits_length (w n : Nat) : (natToBits w n).length = w := by
  induction w generalizing n with
  | zero => rfl
  | succ w ih => simp [natToBits, ih]

theorem natToBits_mem (w n : Nat) : ∀ c ∈ natToBits w n, c = '0' ∨ c = '1' := by
  induction w generalizing n with
  | zero => simp [natToBits]
  | succ w ih =>
    intro c hc
    simp only [natToBits, List.mem_append, List.mem_singleton] at hc
    rcases hc with hc | hc
    · exact ih _ c hc
    · subst hc
      split <;> simp

theorem bitsVal_append_singleton (t : List Char) (c : Char) :
    bitsVal (t ++ [c]) = 2 * bitsVal t + (if c = '1' then 1 else 0) := by
  simp [bitsVal, List.foldl_append]

theorem bitsVal_lt (s : List Char) : bitsVal s < 2 ^ s.length := by
  induction s using List.reverseRecOn with
  | nil => simp [bitsVal]
  | append_singleton t c ih =>
    rw [bitsVal_append_singleton]
    simp only [List.length_append, List.length_singleton, pow_succ]
    split <;> omega

theorem natToBits_bitsVal (s : List Char) (hbin : ∀ c ∈ s, c = '0' ∨ c = '1') :
    natToBits s.length (bitsVal s) = s := by
  induction s using List.reverseRecOn with
  | nil => rfl
  | append_singleton t c ih =>
    have hc : c = '0' ∨ c = '1' := hbin c (by simp)
    have hb : (if c = '1' then 1 else 0) < 2 := by split <;> omega
    rw [bitsVal_append_singleton]
    simp only [List.length_append, List.length_singleton, natToBits]
    have hdiv : (2 * bitsVal t + (if c = '1' then 1 else 0)) / 2 = bitsVal t := by omega
    have hmod : (2 * bitsVal t + (if c = '1' then 1 else 0)) % 2 =
        (if c = '1' then 1 else 0) := by omega
    rw [hdiv, hmod, ih (fun x hx => hbin x (by simp [hx]))]
    rcases hc with rfl | rfl <;> simp

theorem bitsVal_natToBits (w n : Nat) (h : n < 2 ^ w) : bitsVal (natToBits w n) = n := by
  induction w generalizing n with
  | zero => simp at h; simp [natToBits, bitsVal, h]
  | succ w ih =>
    have hdiv : n / 2 < 2 ^ w := by
      rw [pow_succ] at h; omega
    simp only [natToBits, bitsVal_append_singleton, ih (n / 2) hdiv]
    have : (if (if n % 2 = 1 then '1' else '0') = '1' then 1 else 0) = n % 2 := by
      rcases Nat.mod_two_eq_zero_or_one n with hm | hm <;> simp [hm]
    omega

theorem hex2bits_length (e : List Char) : (hex2bits e).length = 4 * e.length := by
  induction e with
  | nil => rfl
  | cons c t ih =>
    simp only [hex2bits, List.map_cons, List.flatten_cons, List.length_append,
      List.length_cons] at *
    rw [ih]
    simp [hex_char_to_bin, natToBits_length]
    ring

theorem hex2bits_mem (e : List Char) : ∀ c ∈ hex2bits e, c = '0' ∨ c = '1' := by
  intro c hc
  simp only [hex2bits, List.mem_flatten, List.mem_map] at hc
  obtain ⟨l, ⟨x, _, rfl⟩, hcl⟩ := hc
  exact natToBits_mem 4 (hexCharVal x) c hcl

theorem bits2hex_hexChar (c : Char) (hc : c ∈ hexDigits) (r : List Char) :
    bits2hex (hex_char_to_bin c ++ r) = c :: bits2hex r := by
  fin_cases hc <;> rfl

theorem bits2hex_hex2bits (e : List Char) (he : ∀ c ∈ e, c ∈ hexDigits) :
    bits2hex (hex2bits e) = e := by
  induction e with
  | nil => rfl
  | cons c t ih =>
    have : hex2bits (c :: t) = hex_char_to_bin c ++ hex2bits t := by
      simp [hex2bits]
    rw [this, bits2hex_hexChar c (he c (by simp)) (hex2bits t),
      ih (fun x hx => he x (by simp [hx]))]

theorem chunk11Go_spec (k : Nat) : ∀ fuel s, s.length = 11 * k → s.length ≤ fuel →
    (chunk11Go fuel s).length = k ∧ (chunk11Go fuel s).flatten = s ∧
      ∀ c ∈ chunk11Go fuel s, c.length = 11 := by
  induction k with
  | zero =>
    intro fuel s hlen _
    have : s = [] := List.eq_nil_of_length_eq_zero (by omega)
    subst this
    cases fuel <;> simp [chunk11Go]
  | succ k ih =>
    intro fuel s hlen hfuel
    match fuel, s with
    | fuel, [] => simp at hlen
    | 0, c :: rest =>
      rw [hlen] at hfuel
      omega
    | fuel + 1, c :: rest =>
      have hdlen : ((c :: rest).drop 11).length = 11 * k := by
        rw [List.length_drop, hlen]
        omega
      have hdfuel : ((c :: rest).drop 11).length ≤ fuel := by
        rw [List.length_drop, hlen]
        rw [hlen] at hfuel
        omega
      obtain ⟨ihl, ihf, ihm⟩ := ih fuel ((c :: rest).drop 11) hdlen hdfuel
      have hunf : chunk11Go (fuel + 1) (c :: rest) =
          (c :: rest).take 11 :: chunk11Go fuel ((c :: rest).drop 11) := rfl
      refine ⟨?_, ?_, ?_⟩
      · rw [hunf, List.length_cons, ihl]
      · rw [hunf, List.flatten_cons, ihf]
        exact List.take_append_drop 11 (c :: rest)
      · intro x hx
        rw [hunf, List.mem_cons] at hx
        rcases hx with rfl | hx
        · rw [List.length_take, hlen]
          omega
        · exact ihm x hx

theorem chunk11_spec (k : Nat) (s : List Char) (hlen : s.length = 11 * k) :
    (chunk11 s).length = k ∧ (chunk11 s).flatten = s ∧ ∀ c ∈ chunk11 s, c.length = 11 :=
  chunk11Go_spec k s.length s hlen le_rfl

theorem mask_shift : ∀ c < 256, (c &&& 240) >>> 4 = c >>> 4 ∧ (c &&& 248) >>> 3 = c >>> 3 ∧
    (c &&& 252) >>> 2 = c >>> 2 ∧ (c &&& 254) >>> 1 = c >>> 1 ∧ c &&& 255 = c := by
  decide

theorem checksum_length (sha0 : List Char → Nat) (eb : Nat) (e : List Char)
    (heb : eb = 128 ∨ eb = 160 ∨ eb = 192 ∨ eb = 224 ∨ eb = 256) :
    (BIP39.checksum sha0 eb e).length = eb / 32 := by
  rcases heb with rfl | rfl | rfl | rfl | rfl <;>
    simp [BIP39.checksum, len_to_mask, natToBits_length]

theorem len_to_mask_cases (n : Nat) : len_to_mask n = 240 ∨ len_to_mask n = 248 ∨
    len_to_mask n = 252 ∨ len_to_mask n = 254 ∨ len_to_mask n = 255 ∨ len_to_mask n = 0 := by
  unfold len_to_mask
  split <;> simp

theorem checksum_mem (sha0 : List Char → Nat) (eb : Nat) (e : List Char) :
    ∀ c ∈ BIP39.checksum sha0 eb e, c = '0' ∨ c = '1' := by
  intro c hc
  rcases len_to_mask_cases eb with h | h | h | h | h | h <;>
    simp [BIP39.checksum, h] at hc
  all_goals exact natToBits_mem _ _ c hc

theorem lookupWords_all_found (wl : Wordlist) (ws : List (List Char))
    (h : ∀ w ∈ ws, 0 ≤ wl.findIndex w) :
    lookupWords wl ws = (ws.map (fun w => (wl.findIndex w).toNat), true) := by
  induction ws with
  | nil => rfl
  | cons w ws ih =>
    have hw : ¬ wl.findIndex w < 0 := not_lt.mpr (h w (by simp))
    simp only [lookupWords, if_neg hw, ih (fun x hx => h x (by simp [hx])), List.map_cons]

theorem valid_length_cases (e : List Char) (h : validateEntropy e = true) :
    e.length = 32 ∨ e.length = 40 ∨ e.length = 48 ∨ e.length = 56 ∨ e.length = 64 := by
  unfold validateEntropy at h
  split at h
  · simp at h
  · simp only [decide_eq_true_eq, Bool.or_eq_true] at h
    omega

theorem validateEntropy_isHex (e : List Char) (h : validateEntropy e = true) : isHex e = true := by
  unfold validateEntropy at h
  split at h
  · simp at h
  · rename_i hx
    simpa using hx

/-! Helper lemmas about the conversion session. -/

theorem chain_ok {α β : Type} (st : α) (f : α → Except MnemonicException β) :
    chain (.ok st) f = f st := rfl

theorem chain_error {α β : Type} (e : MnemonicException) (f : α → Except MnemonicException β) :
    chain (.error e) f = .error e := rfl

theorem construct_nat_ok (wc : Nat) (h1 : 12 ≤ wc) (h2 : wc ≤ 24) (h3 : wc % 3 = 0) :
    BIP39.construct (wc : Int) = .ok
      { m_wordsCount := wc
        m_overallBits := wc * 11
        m_checksumBits := (wc - 12) / 3 + 4
        m_entropyBits := wc * 11 - ((wc - 12) / 3 + 4) } := by
  unfold BIP39.construct
  rw [if_neg (by simp only [Bool.or_eq_true, decide_eq_true_eq]; omega)]
  rw [if_neg (by simp only [bne_iff_ne, ne_eq, Decidable.not_not]; omega)]
  simp only [Int.toNat_ofNat]

theorem width_arith (n : Nat)
    (h : n = 32 ∨ n = 40 ∨ n = 48 ∨ n = 56 ∨ n = 64) :
    12 ≤ wordsCountOfEntropyBits (n * 4) ∧ wordsCountOfEntropyBits (n * 4) ≤ 24 ∧
      wordsCountOfEntropyBits (n * 4) % 3 = 0 ∧
      wordsCountOfEntropyBits (n * 4) * 11 - ((wordsCountOfEntropyBits (n * 4) - 12) / 3 + 4) =
        n * 4 ∧
      (wordsCountOfEntropyBits (n * 4) - 12) / 3 + 4 = n / 8 ∧
      n * 4 + n / 8 = wordsCountOfEntropyBits (n * 4) * 11 := by
  simp only [wordsCountOfEntropyBits, checksumBitsOfEntropyBits]
  rcases h with rfl | rfl | rfl | rfl | rfl <;> omega

theorem useEntropy_ok (sha0 : List Char → Nat) (st : BIP39) (e : List Char)
    (hval : validateEntropy e = true) :
    BIP39.useEntropy sha0 st e = .ok
      { st with
        m_entropy := e
        m_checksum := BIP39.checksum sha0 st.m_entropyBits e
        m_rawBinaryChunks := st.m_rawBinaryChunks ++
          (chunk11 (hex2bits e ++ BIP39.checksum sha0 st.m_entropyBits e)).map bitsVal } := by
  unfold BIP39.useEntropy
  rw [if_neg (by rw [hval]; simp)]

theorem wordList_some (st : BIP39) (w : Wordlist) :
    BIP39.wordList st (some w) = .ok { st with m_wordList := some w } := rfl

theorem mnemonic_ok (st : BIP39) (wl : Wordlist) (hent : ¬ st.m_entropy = [])
    (hwl : st.m_wordList = some wl) (hne : wl.isEmpty = false) :
    BIP39.mnemonic st = .ok
      { entropy := st.m_entropy
        words := st.m_rawBinaryChunks.map (fun b => wl.getWord b)
        wordsIndex := st.m_rawBinaryChunks
        rawBinaryChunks := st.m_rawBinaryChunks
        m_wordsCount := st.m_rawBinaryChunks.length } := by
  unfold BIP39.mnemonic
  rw [if_neg hent, hwl]
  simp [hne]

theorem valid_ne_nil (e : List Char) (hval : validateEntropy e = true) : ¬ e = [] := by
  rcases valid_length_cases e hval with h | h | h | h | h <;>
    (intro hnil; rw [hnil] at h; simp at h)

theorem Entropy_ok (sha0 : List Char → Nat) (wl : Wordlist) (e : List Char)
    (hval : validateEntropy e = true) (hne : wl.isEmpty = false) :
    BIP39.Entropy sha0 wl e = .ok
      { entropy := e
        words := (encodeChunks sha0 e).map (fun b => wl.getWord b)
        wordsIndex := encodeChunks sha0 e
        rawBinaryChunks := encodeChunks sha0 e
        m_wordsCount := (encodeChunks sha0 e).length } := by
  obtain ⟨h12, h24, h3, hent_bits, hcs_bits, hsum⟩ :=
    width_arith e.length (valid_length_cases e hval)
  unfold BIP39.Entropy
  rw [if_neg (by rw [hval]; simp)]
  have hbits : entropyBitsOfHex e = e.length * 4 := rfl
  rw [hbits, construct_nat_ok _ h12 h24 h3, chain_ok,
    useEntropy_ok sha0 _ e hval, chain_ok, wordList_some, chain_ok,
    mnemonic_ok _ wl (by exact valid_ne_nil e hval) rfl hne]
  simp only [List.nil_append, hent_bits, encodeChunks]

theorem valid_eb_cases (e : List Char) (hval : validateEntropy e = true) :
    e.length * 4 = 128 ∨ e.length * 4 = 160 ∨ e.length * 4 = 192 ∨
      e.length * 4 = 224 ∨ e.length * 4 = 256 := by
  have := valid_length_cases e hval
  omega

theorem encodeChunks_spec (sha0 : List Char → Nat) (e : List Char)
    (hval : validateEntropy e = true) :
    (encodeChunks sha0 e).length = wordsCountOfEntropyBits (e.length * 4) ∧
      (∀ v ∈ encodeChunks sha0 e, v < 2048) ∧
      ((encodeChunks sha0 e).map (natToBits 11)).flatten =
        hex2bits e ++ BIP39.checksum sha0 (e.length * 4) e := by
  obtain ⟨h12, h24, h3, hent_bits, hcs_bits, hsum⟩ :=
    width_arith e.length (valid_length_cases e hval)
  have heb := valid_eb_cases e hval
  have hstrlen : (hex2bits e ++ BIP39.checksum sha0 (e.length * 4) e).length =
      11 * wordsCountOfEntropyBits (e.length * 4) := by
    rw [List.length_append, hex2bits_length, checksum_length sha0 _ e heb]
    omega
  obtain ⟨hclen, hcflat, hcmem⟩ :=
    chunk11_spec (wordsCountOfEntropyBits (e.length * 4)) _ hstrlen
  refine ⟨?_, ?_, ?_⟩
  · rw [encodeChunks, List.length_map, hclen]
  · intro v hv
    rw [encodeChunks, List.mem_map] at hv
    obtain ⟨c, hc, rfl⟩ := hv
    have := bitsVal_lt c
    rw [hcmem c hc] at this
    omega
  · rw [encodeChunks, List.map_map]
    have hmap : (chunk11 (hex2bits e ++ BIP39.checksum sha0 (e.length * 4) e)).map
        (natToBits 11 ∘ bitsVal) =
        (chunk11 (hex2bits e ++ BIP39.checksum sha0 (e.length * 4) e)).map id := by
      apply List.map_congr_left
      intro c hc
      have hbin : ∀ x ∈ c, x = '0' ∨ x = '1' := by
        intro x hx
        have hxs : x ∈ hex2bits e ++ BIP39.checksum sha0 (e.length * 4) e := by
          rw [← hcflat]
          exact List.mem_flatten.mpr ⟨c, hc, hx⟩
        rcases List.mem_append.mp hxs with h | h
        · exact hex2bits_mem e x h
        · exact checksum_mem sha0 _ e x h
      have : natToBits c.length (bitsVal c) = c := natToBits_bitsVal c hbin
      rw [hcmem c hc] at this
      simpa using this
    rw [hmap, List.map_id, hcflat]

theorem decode_roundtrip (sha0 : List Char → Nat) (wl : Wordlist) (e : List Char)
    (hval : validateEntropy e = true) (hlow : ∀ c ∈ e, c ∈ hexDigits)
    (hne : wl.isEmpty = false)
    (hfind : ∀ i, i < 2048 → wl.findIndex (wl.getWord i) = (i : Int)) :
    BIP39.decode sha0 wl ((encodeChunks sha0 e).map (fun b => wl.getWord b)) true = .ok
      { entropy := e
        words := (encodeChunks sha0 e).map (fun b => wl.getWord b)
        wordsIndex := encodeChunks sha0 e
        rawBinaryChunks := encodeChunks sha0 e
        m_wordsCount := (encodeChunks sha0 e).length } := by
  obtain ⟨h12, h24, h3, hent_bits, hcs_bits, hsum⟩ :=
    width_arith e.length (valid_length_cases e hval)
  have heb := valid_eb_cases e hval
  obtain ⟨hclen, hvlt, hflat⟩ := encodeChunks_spec sha0 e hval
  have hwslen : ((encodeChunks sha0 e).map (fun b => wl.getWord b)).length =
      wordsCountOfEntropyBits (e.length * 4) := by
    rw [List.length_map, hclen]
  have hfound : ∀ w ∈ (encodeChunks sha0 e).map (fun b => wl.getWord b),
      0 ≤ wl.findIndex w := by
    intro w hw
    rw [List.mem_map] at hw
    obtain ⟨v, hv, rfl⟩ := hw
    rw [hfind v (hvlt v hv)]
    exact Int.ofNat_nonneg v
  have hidx : ((encodeChunks sha0 e).map (fun b => wl.getWord b)).map
      (fun w => (wl.findIndex w).toNat) = encodeChunks sha0 e := by
    rw [List.map_map]
    have : (encodeChunks sha0 e).map ((fun w => (wl.findIndex w).toNat) ∘ fun b => wl.getWord b) =
        (encodeChunks sha0 e).map id := by
      apply List.map_congr_left
      intro v hv
      simp only [Function.comp_apply, id_eq]
      rw [hfind v (hvlt v hv)]
      exact Int.toNat_ofNat v
    rw [this, List.map_id]
  have hmod : (encodeChunks sha0 e).map (fun i => i % 2048) = encodeChunks sha0 e := by
    have : (encodeChunks sha0 e).map (fun i => i % 2048) = (encodeChunks sha0 e).map id := by
      apply List.map_congr_left
      intro v hv
      exact Nat.mod_eq_of_lt (hvlt v hv)
    rw [this, List.map_id]
  unfold BIP39.decode
  rw [hwslen, construct_nat_ok _ h12 h24 h3, chain_ok, wordList_some, chain_ok]
  unfold BIP39.reverse
  dsimp only
  rw [if_neg (by rw [hne]; simp)]
  rw [lookupWords_all_found wl _ hfound]
  dsimp only
  rw [hidx, hmod, hflat, hent_bits]
  have htake : (hex2bits e ++ BIP39.checksum sha0 (e.length * 4) e).take (e.length * 4) =
      hex2bits e := by
    have h4 : e.length * 4 = (hex2bits e).length := by rw [hex2bits_length]; ring
    rw [h4, List.take_left]
  have hdrop : (hex2bits e ++ BIP39.checksum sha0 (e.length * 4) e).drop (e.length * 4) =
      BIP39.checksum sha0 (e.length * 4) e := by
    have h4 : e.length * 4 = (hex2bits e).length := by rw [hex2bits_length]; ring
    rw [h4, List.drop_left]
  rw [htake, hdrop]
  have htakecs : (BIP39.checksum sha0 (e.length * 4) e).take
      ((wordsCountOfEntropyBits (e.length * 4) - 12) / 3 + 4) =
      BIP39.checksum sha0 (e.length * 4) e := by
    have hl : (wordsCountOfEntropyBits (e.length * 4) - 12) / 3 + 4 =
        (BIP39.checksum sha0 (e.length * 4) e).length := by
      rw [checksum_length sha0 _ e heb]
      omega
    rw [hl, List.take_length]
  rw [htakecs]
  rw [bits2hex_hex2bits e hlow]
  have hver : (true && !(hashEquals (BIP39.checksum sha0 (e.length * 4) e)
      (BIP39.checksum sha0 (e.length * 4) e))) = false := by
    rw [hashEquals, beq_self_eq_true]
    rfl
  rw [if_neg (by rw [hver]; simp)]

theorem construct_ok_inv (wordCount : Int) (st : BIP39)
    (h : BIP39.construct wordCount = .ok st) :
    12 ≤ wordCount ∧ wordCount ≤ 24 ∧ wordCount % 3 = 0 ∧
      st = { m_wordsCount := wordCount.toNat
             m_overallBits := wordCount.toNat * 11
             m_checksumBits := (wordCount.toNat - 12) / 3 + 4
             m_entropyBits := wordCount.toNat * 11 - ((wordCount.toNat - 12) / 3 + 4) } := by
  unfold BIP39.construct at h
  split at h
  · simp at h
  · split at h
    · simp at h
    · rename_i h1 h2
      simp only [Bool.or_eq_true, decide_eq_true_eq, not_or] at h1
      simp only [bne_iff_ne, ne_eq, Decidable.not_not] at h2
      injection h with h
      exact ⟨by omega, by omega, h2, h.symm⟩

/-! Claim theorems. -/

/-- C10: for every phrase and every verifyChecksum flag, BIP39::Words
with a null wordlist pointer fails immediately with the Invalid wordlist
error, before any word is parsed or looked up; the null pointer is never
dereferenced. -/
theorem words_null_wordlist_rejected (sha0 : List Char → Nat) (phrase : List Char)
    (verifyChecksum : Bool) :
    BIP39.Words sha0 none phrase verifyChecksum = .error ⟨"Invalid wordlist"⟩ := rfl

/-- C3: for a session whose entropyBits value is not one of 128, 160,
192, 224, 256, BIP39::checksum returns the empty string silently, with
no error; this contradicts the claim and the spec (section 4.2), which
demand an explicit failure, so the code is the defective side. -/
theorem checksum_invalid_bits_returns_empty (sha0 : List Char → Nat) (eb : Nat) (e : List Char)
    (h : ¬(eb = 128 ∨ eb = 160 ∨ eb = 192 ∨ eb = 224 ∨ eb = 256)) :
    BIP39.checksum sha0 eb e = [] := by
  have hmask : len_to_mask eb = 0 := by
    unfold len_to_mask
    split <;> simp_all
  unfold BIP39.checksum
  rw [hmask]
  simp

theorem checksum_invalid_bits_returns_empty_witness :
    BIP39.checksum shaZero 120 zeroEntropy32 = [] :=
  checksum_invalid_bits_returns_empty shaZero 120 zeroEntropy32 (by decide)

/-- C6: construction of a BIP39 session succeeds exactly when the word
count lies in the range 12 to 24 and is a multiple of 3; every other
word count fails with an error. -/
theorem construct_succeeds_iff (wordCount : Int) :
    (∃ st, BIP39.construct wordCount = .ok st) ↔
      (12 ≤ wordCount ∧ wordCount ≤ 24 ∧ wordCount % 3 = 0) := by
  constructor
  · rintro ⟨st, hok⟩
    obtain ⟨h1, h2, h3, _⟩ := construct_ok_inv wordCount st hok
    exact ⟨h1, h2, h3⟩
  · rintro ⟨h1, h2, h3⟩
    have hcast : ((wordCount.toNat : Nat) : Int) = wordCount := Int.toNat_of_nonneg (by omega)
    refine ⟨{ m_wordsCount := wordCount.toNat
              m_overallBits := wordCount.toNat * 11
              m_checksumBits := (wordCount.toNat - 12) / 3 + 4
              m_entropyBits := wordCount.toNat * 11 - ((wordCount.toNat - 12) / 3 + 4) }, ?_⟩
    rw [← hcast]
    exact construct_nat_ok wordCount.toNat (by omega) (by omega) (by omega)

/-- C7: BIP39::validateEntropy is a total boolean predicate, true
exactly when every character of the string is hexadecimal and 4 times
the string length is one of the five valid entropy bit lengths. -/
theorem validateEntropy_iff (s : List Char) :
    validateEntropy s = true ↔
      ((∀ c ∈ s, isHexChar c = true) ∧
        (s.length * 4 = 128 ∨ s.length * 4 = 160 ∨ s.length * 4 = 192 ∨
          s.length * 4 = 224 ∨ s.length * 4 = 256)) := by
  cases hhex : isHex s with
  | false =>
    unfold validateEntropy
    rw [hhex]
    simp only [Bool.not_false, if_true, Bool.false_eq_true, false_iff, not_and]
    intro hall
    have : isHex s = true := by
      rw [isHex, List.all_eq_true]
      exact hall
    rw [hhex] at this
    exact absurd this (by simp)
  | true =>
    unfold validateEntropy
    rw [hhex]
    have hall : ∀ c ∈ s, isHexChar c = true := by
      rw [isHex, List.all_eq_true] at hhex
      exact hhex
    simp only [Bool.not_true, Bool.false_eq_true, if_false, Bool.or_eq_true,
      decide_eq_true_eq]
    constructor
    · intro h
      exact ⟨hall, by tauto⟩
    · rintro ⟨_, hlen⟩
      tauto

/-- C8: finalizing a session before entropy is bound, or before a
wordlist is bound, fails with an explicit error instead of undefined
behaviour (the unbound-wordlist branch is modelled from spec section
4.6, the member declaration living in the missing header). -/
theorem mnemonic_requires_bound_state (st : BIP39)
    (h : st.m_entropy = [] ∨ st.m_wordList = none) :
    ∃ err : MnemonicException, BIP39.mnemonic st = .error err := by
  unfold BIP39.mnemonic
  rcases h with h | h
  · rw [if_pos h]
    exact ⟨_, rfl⟩
  · by_cases hent : st.m_entropy = []
    · rw [if_pos hent]
      exact ⟨_, rfl⟩
    · rw [if_neg hent, h]
      exact ⟨_, rfl⟩

theorem mnemonic_requires_bound_state_witness :
    ∃ err : MnemonicException,
      BIP39.mnemonic
        { m_wordsCount := 12, m_overallBits := 132, m_checksumBits := 4,
          m_entropyBits := 128 } = .error err :=
  mnemonic_requires_bound_state _ (Or.inl rfl)

/-- C4: every successful construction lands exactly on the table 12-128,
15-160, 18-192, 21-224, 24-256, and the word count derivation of
BIP39::Entropy maps each of the five entropy bit lengths to the same
table entry in the other direction. -/
theorem wordcount_entropy_table_exact :
    (∀ (wordCount : Int) (st : BIP39), BIP39.construct wordCount = .ok st →
      ((st.m_wordsCount = 12 ∧ st.m_entropyBits = 128) ∨
        (st.m_wordsCount = 15 ∧ st.m_entropyBits = 160) ∨
        (st.m_wordsCount = 18 ∧ st.m_entropyBits = 192) ∨
        (st.m_wordsCount = 21 ∧ st.m_entropyBits = 224) ∨
        (st.m_wordsCount = 24 ∧ st.m_entropyBits = 256))) ∧
      wordsCountOfEntropyBits 128 = 12 ∧ wordsCountOfEntropyBits 160 = 15 ∧
      wordsCountOfEntropyBits 192 = 18 ∧ wordsCountOfEntropyBits 224 = 21 ∧
      wordsCountOfEntropyBits 256 = 24 := by
  refine ⟨?_, rfl, rfl, rfl, rfl, rfl⟩
  intro wordCount st hok
  obtain ⟨h1, h2, h3, rfl⟩ := construct_ok_inv wordCount st hok
  simp only
  omega

theorem wordcount_entropy_table_exact_witness :
    ((12 : Nat) = 12 ∧ (128 : Nat) = 128) ∨ ((12 : Nat) = 15 ∧ (128 : Nat) = 160) ∨
      ((12 : Nat) = 18 ∧ (128 : Nat) = 192) ∨ ((12 : Nat) = 21 ∧ (128 : Nat) = 224) ∨
      ((12 : Nat) = 24 ∧ (128 : Nat) = 256) :=
  wordcount_entropy_table_exact.1 12
    { m_wordsCount := 12, m_overallBits := 132, m_checksumBits := 4, m_entropyBits := 128 }
    rfl

/-- C5: for each valid entropy bit length, BIP39::checksum returns the
top w bits of the first digest byte shifted down to the low w bits,
rendered as a zero-padded binary string of exactly w characters, with
w equal to entropyBits divided by 32. -/
theorem checksum_top_bits_spec (sha0 : List Char → Nat) (eb : Nat) (e : List Char)
    (heb : eb = 128 ∨ eb = 160 ∨ eb = 192 ∨ eb = 224 ∨ eb = 256)
    (hbyte : sha0 e < 256) :
    BIP39.checksum sha0 eb e = natToBits (eb / 32) (sha0 e >>> (8 - eb / 32)) ∧
      (BIP39.checksum sha0 eb e).length = eb / 32 := by
  obtain ⟨m1, m2, m3, m4, m5⟩ := mask_shift (sha0 e) hbyte
  refine ⟨?_, checksum_length sha0 eb e heb⟩
  rcases heb with rfl | rfl | rfl | rfl | rfl <;>
    simp [BIP39.checksum, len_to_mask, m1, m2, m3, m4, m5]

theorem checksum_top_bits_spec_witness :
    BIP39.checksum shaZero 128 [] = natToBits (128 / 32) (shaZero [] >>> (8 - 128 / 32)) ∧
      (BIP39.checksum shaZero 128 []).length = 128 / 32 :=
  checksum_top_bits_spec shaZero 128 [] (Or.inl rfl) (by decide)

/-- C1 (amended): for every entropy hex string written with lowercase
hexadecimal digits whose bit length is one of 128, 160, 192, 224, 256,
encoding via BIP39::Entropy and then decoding the produced word sequence
with checksum verification (the session, wordList, reverse chain of
BIP39::Words) yields a Mnemonic whose entropy field equals the original
string, provided the wordlist resolves its own words back to their
indices. -/
theorem roundtrip_lowercase_entropy (sha0 : List Char → Nat) (wl : Wordlist) (e : List Char)
    (hval : validateEntropy e = true) (hlow : ∀ c ∈ e, c ∈ hexDigits)
    (hne : wl.isEmpty = false)
    (hfind : ∀ i, i < 2048 → wl.findIndex (wl.getWord i) = (i : Int)) :
    ∃ m : Mnemonic, BIP39.Entropy sha0 wl e = .ok m ∧
      ∃ m2 : Mnemonic, BIP39.decode sha0 wl m.words true = .ok m2 ∧ m2.entropy = e := by
  refine ⟨_, Entropy_ok sha0 wl e hval hne, ?_⟩
  exact ⟨_, decode_roundtrip sha0 wl e hval hlow hne hfind, rfl⟩

theorem roundtrip_lowercase_entropy_witness :
    ∃ m : Mnemonic, BIP39.Entropy shaZero testWordlist zeroEntropy32 = .ok m ∧
      ∃ m2 : Mnemonic, BIP39.decode shaZero testWordlist m.words true = .ok m2 ∧
        m2.entropy = zeroEntropy32 :=
  roundtrip_lowercase_entropy shaZero testWordlist zeroEntropy32 (by decide) (by decide) rfl
    (fun i hi => by
      show Int.ofNat (bitsVal (natToBits 11 i)) = Int.ofNat i
      rw [bitsVal_natToBits 11 i (by rw [show (2 : Nat) ^ 11 = 2048 by norm_num]; exact hi)])

/-- C1 counterexample: the all-uppercase entropy string of 32 letters A
is valid entropy, but encoding it and decoding the produced words with
checksum verification yields the lowercase rendering, which differs from
the original string, so the round trip fails on it as claimed for every
hex entropy string. -/
theorem roundtrip_fails_on_uppercase_entropy :
    validateEntropy upperEntropy32 = true ∧
      (BIP39.Entropy shaZero testWordlist upperEntropy32).toOption.bind
        (fun m => (BIP39.decode shaZero testWordlist m.words true).toOption.map
          Mnemonic.entropy) = some lowerEntropy32 ∧
      lowerEntropy32 ≠ upperEntropy32 := by
  refine ⟨by decide, by decide, by decide⟩

/-- C2: a twelve-word phrase whose last word is unknown to the wordlist
makes BIP39::Words return a successful, silently truncated Mnemonic of
eleven words with empty entropy, not an UnknownWord error; this
contradicts the claim and the spec (sections 7 and 9), so the code is
the defective side. -/
theorem unknown_word_returns_truncated_mnemonic :
    (splitWords phraseWithUnknown).length = 12 ∧
      BIP39.Words shaZero (some unknownWordlist) phraseWithUnknown true = .ok
        { entropy := []
          words := List.replicate 11 ['a']
          wordsIndex := List.replicate 11 0
          rawBinaryChunks := List.replicate 11 0
          m_wordsCount := 11 } := by
  exact ⟨rfl, rfl⟩

/-- C9: a Mnemonic produced by the encoding pipeline, that is useEntropy
followed by mnemonic on a session constructed for the matching word
count, has word count equal to overallBits divided by 11 with as many
words and indices, and every stored WordIndex is at most 2047. -/
theorem encode_pipeline_mnemonic_shape (sha0 : List Char → Nat) (wordCount : Int)
    {st st2 st3 : BIP39} (wl : Wordlist) (e : List Char) {m : Mnemonic}
    (hctor : BIP39.construct wordCount = .ok st)
    (hval : validateEntropy e = true)
    (hmatch : e.length * 4 = st.m_entropyBits)
    (huse : BIP39.useEntropy sha0 st e = .ok st2)
    (hwl : BIP39.wordList st2 (some wl) = .ok st3)
    (hmn : BIP39.mnemonic st3 = .ok m) :
    m.m_wordsCount = st.m_overallBits / 11 ∧ m.words.length = m.m_wordsCount ∧
      m.wordsIndex.length = m.m_wordsCount ∧ ∀ i ∈ m.wordsIndex, i ≤ 2047 := by
  obtain ⟨h12, h24, h3, rfl⟩ := construct_ok_inv wordCount st hctor
  rw [useEntropy_ok sha0 _ e hval] at huse
  injection huse with huse
  subst huse
  rw [wordList_some] at hwl
  injection hwl with hwl
  subst hwl
  have hne : wl.isEmpty = false := by
    cases hwe : wl.isEmpty
    · rfl
    · exfalso
      unfold BIP39.mnemonic at hmn
      dsimp only at hmn
      rw [if_neg (valid_ne_nil e hval), hwe] at hmn
      simp at hmn
  rw [mnemonic_ok _ wl (valid_ne_nil e hval) rfl hne] at hmn
  injection hmn with hmn
  subst hmn
  dsimp only [List.nil_append] at hmatch ⊢
  rw [← hmatch]
  rw [show (chunk11 (hex2bits e ++ BIP39.checksum sha0 (e.length * 4) e)).map bitsVal =
    encodeChunks sha0 e from rfl]
  obtain ⟨hclen, hvlt, _⟩ := encodeChunks_spec sha0 e hval
  refine ⟨?_, ?_, ?_, ?_⟩
  · rw [hclen]
    simp only [wordsCountOfEntropyBits, checksumBitsOfEntropyBits]
    omega
  · rw [List.length_map]
  · rfl
  · intro i hi
    have := hvlt i hi
    omega

theorem encode_pipeline_mnemonic_shape_witness :
    (12 : Nat) = 132 / 11 ∧
      (List.replicate 12 (natToBits 11 0)).length = 12 ∧
      (List.replicate 12 (0 : Nat)).length = 12 ∧
      ∀ i ∈ List.replicate 12 (0 : Nat), i ≤ 2047 :=
  encode_pipeline_mnemonic_shape shaZero 12 testWordlist zeroEntropy32 rfl (by decide)
    rfl rfl rfl rfl
